import Mathlib

/-!
Verification of the content-collection build pipeline of the
`blog-personal-nextjs` repository.

The definitions below are a shallow embedding of the custom logic in
`apps/web/content-collections.ts` (slug derivation, reading time, author
resolution, the raw-source capture and metadata-hoist rehype passes) and of
`src/lib/core/utils/rehype-npm-command.ts` and `src/config/blog.ts` (both
present in bundled form next to the mdx components).

JavaScript strings are modeled as `List Char`; fallible / possibly-`undefined`
values are modeled with `Option`.
-/

namespace BlogSpec

/-- Abbreviation: the character list of a Lean string literal, used to write
JS string constants from the source. -/
def str (s : String) : List Char := s.toList

/-! ## Slug derivation

`content-collections.ts`, docs transform (lines 114-124):

```js
const normalizedPath = doc._meta.path.replace(/\\/g, "/");
const cleanPath = normalizedPath.replace(/\/index$/, "").replace(/^index$/, "");
const slugAsParams = cleanPath || normalizedPath.split("/")[0];
...
slug: cleanPath ? `/${cleanPath}` : `/${normalizedPath.split("/")[0]}`,
```

and blogs transform (lines 243-246, 273-274):

```js
const normalizedPath = doc._meta.path.replace(/\\/g, "/");
const pathParts = normalizedPath.split("/");
const slugAsParams = pathParts.join("/");
...
slug: `/${normalizedPath}`,
```

`doc._meta.path` is the file path relative to the collection directory,
without extension (e.g. `vi/my-post` for `content/blog/vi/my-post.mdx`).
-/

/-- `path.replace(/\\/g, "/")`: every backslash becomes a forward slash. -/
def normalizePath (p : List Char) : List Char :=
  p.map fun c => if c = '\\' then '/' else c

/-- `normalizedPath.replace(/\/index$/, "").replace(/^index$/, "")`:
first drop one trailing `/index` (the regex is anchored at the end, and
non-global `replace` rewrites a single match), then map the exact string
`index` to the empty string. -/
def cleanPath (n : List Char) : List Char :=
  let n1 := if (str "/index").isSuffixOf n then n.take (n.length - 6) else n
  if n1 = str "index" then [] else n1

/-- `s.split("/")[0]`: the first `/`-separated segment (JS yields `""` for the
empty string, matching `takeWhile`). -/
def firstSegment (n : List Char) : List Char :=
  n.takeWhile fun c => c ≠ '/'

/-- Docs `slug`: `cleanPath ? "/" + cleanPath : "/" + normalizedPath.split("/")[0]`
(the empty string is the only falsy string). -/
def docsSlug (path : List Char) : List Char :=
  let n := normalizePath path
  let c := cleanPath n
  if c = [] then '/' :: firstSegment n else '/' :: c

/-- Docs `slugAsParams`: `cleanPath || normalizedPath.split("/")[0]`. -/
def docsSlugAsParams (path : List Char) : List Char :=
  let n := normalizePath path
  let c := cleanPath n
  if c = [] then firstSegment n else c

/-- Blog `slug`: `"/" + normalizedPath`. -/
def blogSlug (path : List Char) : List Char :=
  '/' :: normalizePath path

/-- Blog `slugAsParams`: `normalizedPath.split("/").join("/")`. -/
def blogSlugAsParams (path : List Char) : List Char :=
  List.intercalate ['/'] ((normalizePath path).splitOn '/')

example : docsSlug (str "vi/guide/index") = str "/vi/guide" := by decide
example : docsSlug (str "vi/index") = str "/vi" := by decide
example : docsSlug (str "vi/getting-started") = str "/vi/getting-started" := by decide
example : docsSlug (str "index") = str "/index" := by decide
example : blogSlug (str "vi/my-post") = str "/vi/my-post" := by decide
example : blogSlugAsParams (str "vi/my-post") = str "vi/my-post" := by decide

theorem normalizePath_append (p q : List Char) :
    normalizePath (p ++ q) = normalizePath p ++ normalizePath q :=
  List.map_append _ p q

theorem normalizePath_eq_self {p : List Char} (h : '\\' ∉ p) :
    normalizePath p = p := by
  induction p with
  | nil => rfl
  | cons c cs ih =>
    simp only [List.mem_cons, not_or] at h
    have hc : c ≠ '\\' := fun hcc => h.1 hcc.symm
    show (if c = '\\' then '/' else c) :: normalizePath cs = c :: cs
    rw [if_neg hc, ih h.2]

theorem normalizePath_eq_nil_iff {p : List Char} :
    normalizePath p = [] ↔ p = [] := by
  simp [normalizePath]

theorem normalizePath_idem (p : List Char) :
    normalizePath (normalizePath p) = normalizePath p := by
  simp only [normalizePath, List.map_map]
  apply List.map_congr_left
  intro c _
  by_cases hc : c = '\\' <;> simp [hc]

theorem cleanPath_append_index (q : List Char) :
    cleanPath (q ++ str "/index") = if q = str "index" then [] else q := by
  have hsuf : (str "/index").isSuffixOf (q ++ str "/index") = true := by
    simp [List.suffix_append]
  have hlen : (q ++ str "/index").length - 6 = q.length := by
    simp [str]
  have htake : (q ++ str "/index").take q.length = q :=
    List.take_left q _
  simp only [cleanPath, hsuf, if_true, hlen, htake]

theorem docsSlug_append_index {q : List Char} (hq : q ≠ []) :
    docsSlug (q ++ str "/index") = '/' :: normalizePath q := by
  have hnorm : normalizePath (q ++ str "/index")
      = normalizePath q ++ str "/index" := by
    rw [normalizePath_append]
    congr 1
  have hnq : normalizePath q ≠ [] := fun h => hq (normalizePath_eq_nil_iff.mp h)
  rw [docsSlug, hnorm, cleanPath_append_index]
  by_cases hidx : normalizePath q = str "index"
  · rw [hidx]
    simp only [if_true]
    decide
  · simp only [hidx, if_false, hnq]

/-- C2: `docs.transform` normalizes path separators to `/` (the slug of any
path equals the slug of its separator-normalized form), drops a trailing
`index` segment (`q/index` compiles to `/` + normalized `q` for every
non-empty `q`), and on the spec's two examples: `vi/guide/index` gives
`/vi/guide` and `vi/index` gives `/vi`. -/
theorem docs_slug_index_collapsing :
    (∀ q : List Char, q ≠ [] →
      docsSlug (q ++ str "/index") = '/' :: normalizePath q)
    ∧ (∀ s : List Char, docsSlug s = docsSlug (normalizePath s))
    ∧ docsSlug (str "vi/guide/index") = str "/vi/guide"
    ∧ docsSlug (str "vi/index") = str "/vi" := by
  refine ⟨fun q hq => docsSlug_append_index hq, fun s => ?_, by decide, by decide⟩
  rw [docsSlug, docsSlug, normalizePath_idem]

theorem docs_slug_index_collapsing_witness :
    docsSlug (str "vi/guide" ++ str "/index") = '/' :: normalizePath (str "vi/guide") :=
  docs_slug_index_collapsing.1 (str "vi/guide") (by decide)

/-- C9: for both collections, the compiled `slug` is exactly `'/'` consed onto
`slugAsParams`; in particular every slug begins with `/` and `slugAsParams`
carries the same path with no leading `/`. -/
theorem slug_slugAsParams_relation :
    ∀ path : List Char,
      docsSlug path = '/' :: docsSlugAsParams path
      ∧ blogSlug path = '/' :: blogSlugAsParams path := by
  intro path
  constructor
  · rw [docsSlug, docsSlugAsParams]
    by_cases h : cleanPath (normalizePath path) = [] <;> simp [h]
  · rw [blogSlug, blogSlugAsParams, List.intercalate_splitOn]

/-- C3 counterexample: the docs paths `vi/guide` and `vi/guide/index` are
distinct source paths yet derive the same slug `/vi/guide`, so slug
derivation is not injective and no error interrupts it. -/
theorem docs_slug_collision_counterexample :
    docsSlug (str "vi/guide") = docsSlug (str "vi/guide/index")
    ∧ str "vi/guide" ≠ str "vi/guide/index" := by
  constructor
  · decide
  · decide

theorem docsSlug_of_clean {p : List Char} (hb : '\\' ∉ p)
    (hsuf : (str "/index").isSuffixOf p = false) (hidx : p ≠ str "index") :
    docsSlug p = '/' :: p := by
  rw [docsSlug, normalizePath_eq_self hb, cleanPath]
  simp only [hsuf]
  simp only [Bool.false_eq_true, if_false, hidx, if_false]
  by_cases hp : p = []
  · subst hp
    decide
  · simp only [hp, if_false]

/-- C3 amended: slug derivation admits collisions (see the counterexample) and
the transform never reports them; however it is injective on the restricted
domain of backslash-free paths that neither end in `/index` nor equal `index`
(docs), resp. backslash-free paths (blogs). -/
theorem slug_uniqueness_restricted :
    (∀ p q : List Char, '\\' ∉ p → '\\' ∉ q →
      (str "/index").isSuffixOf p = false → (str "/index").isSuffixOf q = false →
      p ≠ str "index" → q ≠ str "index" →
      p ≠ q → docsSlug p ≠ docsSlug q)
    ∧ (∀ p q : List Char, '\\' ∉ p → '\\' ∉ q →
      p ≠ q → blogSlug p ≠ blogSlug q) := by
  constructor
  · intro p q hbp hbq hsp hsq hip hiq hne heq
    rw [docsSlug_of_clean hbp hsp hip, docsSlug_of_clean hbq hsq hiq] at heq
    exact hne (List.cons_injective heq)
  · intro p q hbp hbq hne heq
    rw [blogSlug, blogSlug, normalizePath_eq_self hbp, normalizePath_eq_self hbq] at heq
    exact hne (List.cons_injective heq)

theorem slug_uniqueness_restricted_witness :
    docsSlug (str "vi/a") ≠ docsSlug (str "vi/b") :=
  slug_uniqueness_restricted.1 (str "vi/a") (str "vi/b")
    (by decide) (by decide) (by decide) (by decide) (by decide) (by decide) (by decide)

/-! ## Reading time

`content-collections.ts`, blogs transform (lines 248-251):

```js
const wordsPerMinute = 200;
const numberOfWords = doc.content.trim().split(/\s+/).length;
const readTimeInMinutes = Math.ceil(numberOfWords / wordsPerMinute);
```
-/

/-- The JS whitespace class matched by the regexp separator (ASCII members). -/
def isWs (c : Char) : Bool :=
  c = ' ' || c = '\t' || c = '\n' || c = '\r' || c = '\x0B' || c = '\x0C'

/-- `s.trim()`: strip leading and trailing whitespace. -/
def trimChars (l : List Char) : List Char :=
  ((l.dropWhile isWs).reverse.dropWhile isWs).reverse

/-- `s.split(/\s+/)`: each maximal whitespace run separates two pieces; the
empty string yields the single piece `""`, and a leading or trailing run
contributes an empty piece, exactly as JS `String.prototype.split` with a
regexp separator. `acc` is the (reversed) piece currently being read and
`inRun` records whether the previous character belonged to the current
whitespace run (so the rest of the run is consumed without emitting). -/
def splitWs : List Char → List Char → Bool → List (List Char)
  | [], acc, _ => [acc.reverse]
  | c :: rest, acc, inRun =>
    if isWs c then
      if inRun then splitWs rest acc true
      else acc.reverse :: splitWs rest [] true
    else splitWs rest (c :: acc) false

/-- `doc.content.trim().split(/\s+/).length`. -/
def numberOfWords (content : List Char) : Nat :=
  (splitWs (trimChars content) [] false).length

/-- `Math.ceil(numberOfWords / 200)` on natural word counts. -/
def readTimeInMinutes (content : List Char) : Nat :=
  (numberOfWords content + 199) / 200

/-- A body made of the given words separated by single spaces. -/
def joinWords : List (List Char) → List Char
  | [] => []
  | [w] => w
  | w :: ws => w ++ ' ' :: joinWords ws

example : numberOfWords (str "  hello   world ") = 2 := by decide
example : numberOfWords (str "") = 1 := by decide
example : readTimeInMinutes (str "") = 1 := by decide
example : joinWords [str "a", str "b", str "c"] = str "a b c" := by decide

theorem splitWs_length_pos : ∀ (l acc : List Char) (b : Bool),
    0 < (splitWs l acc b).length := by
  intro l
  induction l with
  | nil => intro acc b; simp [splitWs]
  | cons c rest ih =>
    intro acc b
    rw [splitWs]
    by_cases hc : isWs c = true
    · cases b <;> simp [hc, ih]
    · simp only [Bool.not_eq_true] at hc
      simp [hc, ih]

theorem splitWs_word (w : List Char) (hw : ∀ c ∈ w, isWs c = false) :
    ∀ l acc b, splitWs (w ++ l) acc b
      = splitWs l (w.reverse ++ acc) (b && w.isEmpty) := by
  induction w with
  | nil => intro l acc b; simp
  | cons c cs ih =>
    intro l acc b
    have hc : isWs c = false := hw c (by simp)
    rw [List.cons_append, splitWs]
    simp only [hc, Bool.false_eq_true, if_false]
    rw [ih (fun d hd => hw d (by simp [hd])) l (c :: acc) false]
    simp

theorem dropWhile_eq_self_of_head {l : List Char}
    (h : ∀ hne : l ≠ [], isWs (l.head hne) = false) :
    l.dropWhile isWs = l := by
  cases l with
  | nil => rfl
  | cons c cs =>
    have := h (by simp)
    simp only [List.head_cons] at this
    simp [List.dropWhile_cons, this]

theorem joinWords_ne_nil {w : List Char} {ws : List (List Char)} (hw : w ≠ []) :
    joinWords (w :: ws) ≠ [] := by
  cases ws with
  | nil => simpa [joinWords] using hw
  | cons w' ws' => simp [joinWords, hw]

theorem joinWords_head_not_ws {w : List Char} {ws : List (List Char)}
    (hw : w ≠ []) (hwf : ∀ c ∈ w, isWs c = false) :
    ∀ hne : joinWords (w :: ws) ≠ [], isWs ((joinWords (w :: ws)).head hne) = false := by
  obtain ⟨c, cs, rfl⟩ : ∃ c cs, w = c :: cs := by
    cases w with
    | nil => exact absurd rfl hw
    | cons c cs => exact ⟨c, cs, rfl⟩
  have hc : isWs c = false := hwf c (by simp)
  cases ws with
  | nil => intro hne; simpa [joinWords] using hc
  | cons w' ws' => intro hne; simpa [joinWords] using hc

theorem splitWs_true_eq_false {l : List Char}
    (h : ∀ hne : l ≠ [], isWs (l.head hne) = false) :
    ∀ acc, splitWs l acc true = splitWs l acc false := by
  cases l with
  | nil => intro acc; rfl
  | cons c cs =>
    intro acc
    have := h (by simp)
    simp only [List.head_cons] at this
    simp [splitWs, this]

theorem splitWs_joinWords :
    ∀ ws : List (List Char),
      (∀ w ∈ ws, w ≠ [] ∧ ∀ c ∈ w, isWs c = false) → ws ≠ [] →
      splitWs (joinWords ws) [] false = ws := by
  intro ws
  induction ws with
  | nil => intro _ h; exact absurd rfl h
  | cons w ws' ih =>
    intro hall _
    have hw := hall w (by simp)
    cases ws' with
    | nil =>
      show splitWs (joinWords [w]) [] false = [w]
      have : joinWords [w] = w ++ [] := by simp [joinWords]
      rw [this, splitWs_word w hw.2]
      simp [splitWs]
    | cons w' ws'' =>
      show splitWs (w ++ ' ' :: joinWords (w' :: ws'')) [] false = w :: w' :: ws''
      rw [splitWs_word w hw.2]
      have hnil : w.isEmpty = false := by
        cases w with
        | nil => exact absurd rfl hw.1
        | cons _ _ => rfl
      rw [splitWs]
      have hsp : isWs ' ' = true := by decide
      simp only [hsp, hnil, Bool.and_false, Bool.false_and, if_true,
        Bool.false_eq_true, if_false]
      have hrest : ∀ v ∈ (w' :: ws''), v ≠ [] ∧ ∀ c ∈ v, isWs c = false :=
        fun v hv => hall v (by simp [hv])
      have hw' := hrest w' (by simp)
      rw [splitWs_true_eq_false (joinWords_head_not_ws hw'.1 hw'.2)]
      rw [ih hrest (by simp)]
      simp

theorem dropWhile_eq_self_of_all {l : List Char}
    (h : ∀ c ∈ l, isWs c = false) : l.dropWhile isWs = l := by
  cases l with
  | nil => rfl
  | cons c cs => simp [List.dropWhile_cons, h c (by simp)]

theorem head_not_ws_of_dropWhile_eq_self :
    ∀ (l : List Char), l.dropWhile isWs = l →
      ∀ hne : l ≠ [], isWs (l.head hne) = false := by
  intro l hd
  cases l with
  | nil => intro hne; exact absurd rfl hne
  | cons c cs =>
    intro _
    simp only [List.head_cons]
    by_cases hc : isWs c = true
    · exfalso
      rw [List.dropWhile_cons_of_pos hc] at hd
      have hlen := congrArg List.length hd
      have := List.Sublist.length_le (List.dropWhile_sublist (l := cs) isWs)
      simp only [List.length_cons] at hlen
      omega
    · simpa using hc

theorem joinWords_reverse_dropWhile :
    ∀ ws : List (List Char),
      (∀ w ∈ ws, w ≠ [] ∧ ∀ c ∈ w, isWs c = false) → ws ≠ [] →
      (joinWords ws).reverse.dropWhile isWs = (joinWords ws).reverse := by
  intro ws
  induction ws with
  | nil => intro _ h; exact absurd rfl h
  | cons w ws' ih =>
    intro hall _
    have hw := hall w (by simp)
    cases ws' with
    | nil =>
      show (joinWords [w]).reverse.dropWhile isWs = (joinWords [w]).reverse
      apply dropWhile_eq_self_of_all
      intro c hc
      rw [List.mem_reverse] at hc
      exact hw.2 c (by simpa [joinWords] using hc)
    | cons w' ws'' =>
      have hrest : ∀ v ∈ (w' :: ws''), v ≠ [] ∧ ∀ c ∈ v, isWs c = false :=
        fun v hv => hall v (by simp [hv])
      have hw' := hrest w' (by simp)
      have hJ : joinWords (w' :: ws'') ≠ [] := joinWords_ne_nil hw'.1
      have hJr : (joinWords (w' :: ws'')).reverse ≠ [] := by
        simpa using hJ
      have ihr := ih hrest (by simp)
      obtain ⟨c, t, hct⟩ : ∃ c t, (joinWords (w' :: ws'')).reverse = c :: t := by
        cases hcr : (joinWords (w' :: ws'')).reverse with
        | nil => exact absurd hcr hJr
        | cons c t => exact ⟨c, t, rfl⟩
      have hc : isWs c = false := by
        have h2 := ihr
        rw [hct] at h2
        simpa using head_not_ws_of_dropWhile_eq_self (c :: t) h2 (by simp)
      show (w ++ ' ' :: joinWords (w' :: ws'')).reverse.dropWhile isWs
          = (w ++ ' ' :: joinWords (w' :: ws'')).reverse
      rw [List.reverse_append]
      simp only [List.reverse_cons]
      rw [hct]
      simp [List.dropWhile_cons, hc]

theorem trim_joinWords (ws : List (List Char))
    (hall : ∀ w ∈ ws, w ≠ [] ∧ ∀ c ∈ w, isWs c = false) (hne : ws ≠ []) :
    trimChars (joinWords ws) = joinWords ws := by
  obtain ⟨w, ws', rfl⟩ : ∃ w ws', ws = w :: ws' := by
    cases ws with
    | nil => exact absurd rfl hne
    | cons w ws' => exact ⟨w, ws', rfl⟩
  have hw := hall w (by simp)
  rw [trimChars, dropWhile_eq_self_of_head (joinWords_head_not_ws hw.1 hw.2),
    joinWords_reverse_dropWhile _ hall hne, List.reverse_reverse]

/-- Shared evaluation of the reading time on a body made of `ws.length`
whitespace-free words: the word-split of the trimmed body has
`max 1 ws.length` pieces (the empty body still splits into one empty piece,
JS `"".split` returning `[""]`), so the reading time is
`max 1 (ceil (ws.length / 200))`. -/
theorem readTime_joinWords (ws : List (List Char))
    (hall : ∀ w ∈ ws, w ≠ [] ∧ ∀ c ∈ w, isWs c = false) :
    readTimeInMinutes (joinWords ws) = max 1 ((ws.length + 199) / 200) := by
  cases ws with
  | nil => decide
  | cons w ws' =>
    rw [readTimeInMinutes, numberOfWords, trim_joinWords _ hall (by simp),
      splitWs_joinWords _ hall (by simp)]
    have hpos : 1 ≤ ((w :: ws').length + 199) / 200 := by
      rw [Nat.one_le_div_iff (by omega)]
      simp only [List.length_cons]
      omega
    omega

/-- C4: reading time of a blog body. For a body of `w` whitespace-delimited
words (words nonempty and whitespace-free, separated by single spaces) the
computed `readTimeInMinutes` is `w / 200` rounded up, floored at one minute
(`max 1 (ceil (w / 200))`); it is at least `1` for every body, the empty body
included; and it is monotone in the word count. -/
theorem blog_read_time :
    (∀ ws : List (List Char),
        (∀ w ∈ ws, w ≠ [] ∧ ∀ c ∈ w, isWs c = false) →
        readTimeInMinutes (joinWords ws) = max 1 ((ws.length + 199) / 200))
    ∧ (∀ content : List Char, 1 ≤ readTimeInMinutes content)
    ∧ (∀ ws1 ws2 : List (List Char),
        (∀ w ∈ ws1, w ≠ [] ∧ ∀ c ∈ w, isWs c = false) →
        (∀ w ∈ ws2, w ≠ [] ∧ ∀ c ∈ w, isWs c = false) →
        ws1.length < ws2.length →
        readTimeInMinutes (joinWords ws1) ≤ readTimeInMinutes (joinWords ws2)) := by
  refine ⟨readTime_joinWords, fun content => ?_, fun ws1 ws2 h1 h2 hlt => ?_⟩
  · rw [readTimeInMinutes, Nat.one_le_div_iff (by omega)]
    have := splitWs_length_pos (trimChars content) [] false
    rw [numberOfWords]
    omega
  · rw [readTime_joinWords ws1 h1, readTime_joinWords ws2 h2]
    have : (ws1.length + 199) / 200 ≤ (ws2.length + 199) / 200 :=
      Nat.div_le_div_right (by omega)
    omega

theorem blog_read_time_witness :
    readTimeInMinutes (joinWords [str "hello", str "world"])
      = max 1 (([str "hello", str "world"].length + 199) / 200) :=
  blog_read_time.1 [str "hello", str "world"] (by decide)

/-! ## Author resolution

`content-collections.ts`, blogs transform (lines 253-268):

```js
const normalizedDir = doc._meta.directory.replace(/\\/g, "/");
const [, locale] = normalizedDir.split("/");
const authorData = blogConfig.authors.find(
  (author) => author.id === doc.author_id
);
const author = authorData
  ? { ...authorData,
      bio: authorData.bio?.[locale] || authorData.bio?.vi }
  : { id: doc.author_id };
```

with the static table from `src/config/blog.ts` (bundled next to the mdx
components). Localized maps (`bio`, `social`) are modeled as key/value lists;
possibly-`undefined` values as `Option`.
-/

structure Author where
  id : String
  name : String
  image : String
  site : String
  email : String
  bio : List (String × String)
  social : List (String × String)
deriving DecidableEq

/-- The single entry of `blogConfig.authors` in `src/config/blog.ts`. -/
def huynhsangAuthor : Author :=
  { id := "huynhsang"
    name := "Huỳnh Sang"
    image := "/authors/huynhsang.jpg"
    site := "https://github.com/HuynhSang2005"
    email := "huynhsang2005@example.com"
    bio := [("vi", "Lập trình viên | Người yêu công nghệ | Blogger")]
    social := [("github", "HuynhSang2005"), ("twitter", "@huynhsang"),
      ("youtube", "huynhsang"), ("linkedin", "huynhsang")] }

def blogConfigAuthors : List Author := [huynhsangAuthor]

/-- The compiled `author` field: all fields may be absent (`undefined`),
as in the fallback branch `{ id: doc.author_id }`. -/
structure ResolvedAuthor where
  id : Option String := none
  name : Option String := none
  image : Option String := none
  site : Option String := none
  email : Option String := none
  bio : Option String := none
  social : Option (List (String × String)) := none
deriving DecidableEq

/-- JS property lookup `m[k]` in an object modeled as a key/value list. -/
def lookupKey (m : List (String × String)) (k : String) : Option String :=
  (m.find? fun kv => kv.1 == k).map fun kv => kv.2

/-- JS `a || b` on possibly-`undefined` strings: `a` unless it is absent or
empty (the only falsy strings). -/
def jsOrStr : Option String → Option String → Option String
  | some s, b => if s = "" then b else some s
  | none, b => b

/-- `doc._meta.directory.replace(/\\/g, "/")` as a `String`. -/
def normalizeDir (directory : String) : String :=
  String.mk (normalizePath directory.toList)

/-- `const [, locale] = normalizedDir.split("/")`: the second
`/`-separated segment, `undefined` when there is none. -/
def localeOf (directory : String) : Option String :=
  ((normalizeDir directory).splitOn "/")[1]?

/-- Lines 256-268 of `content-collections.ts` (author lookup and merge). -/
def resolveAuthor (author_id : Option String) (directory : String) : ResolvedAuthor :=
  let locale := localeOf directory
  match blogConfigAuthors.find? fun a => some a.id == author_id with
  | some a =>
      { id := some a.id, name := some a.name, image := some a.image,
        site := some a.site, email := some a.email,
        social := some a.social,
        bio := jsOrStr (locale.bind fun l => lookupKey a.bio l)
          (lookupKey a.bio "vi") }
  | none => { id := author_id }

/-- The claim's (and spec §4.4's) description of bio selection, stated in the
spec's words for comparison with the code: take the entry of the author's
localized bio map at the document's locale segment, and fall back to the
default locale `vi` when that locale has no entry. -/
def specBioSelection (a : Author) (localeSegment : String) : Option String :=
  match lookupKey a.bio localeSegment with
  | some b => some b
  | none => lookupKey a.bio "vi"

/-- The document's locale segment: the first `/`-separated segment of the
normalized directory (e.g. `vi` for a blog post under `vi/`). -/
def docLocaleSegment (directory : String) : String :=
  String.mk (firstSegment (normalizePath directory.toList))

theorem code_bio_huynhsang (loc : Option String) :
    jsOrStr (loc.bind fun l => lookupKey huynhsangAuthor.bio l)
      (lookupKey huynhsangAuthor.bio "vi")
      = some "Lập trình viên | Người yêu công nghệ | Blogger" := by
  have hvi : lookupKey huynhsangAuthor.bio "vi"
      = some "Lập trình viên | Người yêu công nghệ | Blogger" := by decide
  cases loc with
  | none => simpa [jsOrStr] using hvi
  | some l =>
    by_cases hl : ("vi" : String) == l
    · have : lookupKey huynhsangAuthor.bio l
          = some "Lập trình viên | Người yêu công nghệ | Blogger" := by
        rw [lookupKey]
        show ((huynhsangAuthor.bio).find? fun kv => kv.1 == l).map _ = _
        have : (huynhsangAuthor.bio).find? (fun kv => kv.1 == l)
            = some ("vi", "Lập trình viên | Người yêu công nghệ | Blogger") := by
          show List.find? _ [("vi", "Lập trình viên | Người yêu công nghệ | Blogger")] = _
          rw [List.find?_cons]
          simp [hl]
        rw [this]
        rfl
      simp [Option.bind, this, jsOrStr]
    · have : lookupKey huynhsangAuthor.bio l = none := by
        rw [lookupKey]
        have : (huynhsangAuthor.bio).find? (fun kv => kv.1 == l) = none := by
          show List.find? _ [("vi", "Lập trình viên | Người yêu công nghệ | Blogger")] = _
          rw [List.find?_cons]
          simp only [hl]
          rfl
        rw [this]
        rfl
      simp [Option.bind, this, jsOrStr, hvi]

theorem spec_bio_huynhsang (seg : String) :
    specBioSelection huynhsangAuthor seg
      = some "Lập trình viên | Người yêu công nghệ | Blogger" := by
  rw [specBioSelection]
  by_cases hl : ("vi" : String) == seg
  · have : lookupKey huynhsangAuthor.bio seg
        = some "Lập trình viên | Người yêu công nghệ | Blogger" := by
      rw [lookupKey]
      have : (huynhsangAuthor.bio).find? (fun kv => kv.1 == seg)
          = some ("vi", "Lập trình viên | Người yêu công nghệ | Blogger") := by
        show List.find? _ [("vi", "Lập trình viên | Người yêu công nghệ | Blogger")] = _
        rw [List.find?_cons]
        simp [hl]
      rw [this]
      rfl
    rw [this]
  · have : lookupKey huynhsangAuthor.bio seg = none := by
      rw [lookupKey]
      have : (huynhsangAuthor.bio).find? (fun kv => kv.1 == seg) = none := by
        show List.find? _ [("vi", "Lập trình viên | Người yêu công nghệ | Blogger")] = _
        rw [List.find?_cons]
        simp only [hl]
        rfl
      rw [this]
      rfl
    rw [this]
    decide

theorem resolveAuthor_huynhsang (directory : String) :
    resolveAuthor (some "huynhsang") directory
      = { id := some "huynhsang", name := some "Huỳnh Sang",
          image := some "/authors/huynhsang.jpg",
          site := some "https://github.com/HuynhSang2005",
          email := some "huynhsang2005@example.com",
          social := some huynhsangAuthor.social,
          bio := some "Lập trình viên | Người yêu công nghệ | Blogger" } := by
  rw [resolveAuthor]
  have hfind : (blogConfigAuthors.find? fun a => some a.id == some "huynhsang")
      = some huynhsangAuthor := by decide
  rw [hfind]
  simp only
  rw [code_bio_huynhsang]
  rfl

/-- C7: for every author of the static table and every document directory,
the compiled `author` equals the stored record (all fields populated) merged
with a bio equal to the spec's locale-aware selection: the bio-map entry at
the document's locale segment, with fallback to the default `vi` bio. -/
theorem author_locale_bio :
    ∀ a ∈ blogConfigAuthors, ∀ directory : String,
      resolveAuthor (some a.id) directory
        = { id := some a.id, name := some a.name, image := some a.image,
            site := some a.site, email := some a.email,
            social := some a.social,
            bio := specBioSelection a (docLocaleSegment directory) } := by
  intro a ha directory
  have : a = huynhsangAuthor := by
    simpa [blogConfigAuthors] using ha
  subst this
  show resolveAuthor (some "huynhsang") directory = _
  rw [resolveAuthor_huynhsang, spec_bio_huynhsang]
  rfl

theorem author_locale_bio_witness :
    resolveAuthor (some huynhsangAuthor.id) "vi"
      = { id := some huynhsangAuthor.id, name := some huynhsangAuthor.name,
          image := some huynhsangAuthor.image, site := some huynhsangAuthor.site,
          email := some huynhsangAuthor.email, social := some huynhsangAuthor.social,
          bio := specBioSelection huynhsangAuthor (docLocaleSegment "vi") } :=
  author_locale_bio huynhsangAuthor (by simp [blogConfigAuthors]) "vi"

/-- C8: when the front-matter `author_id` matches no id of the static authors
table, the compiled `author` is exactly `{ id: author_id }`: every other
field is absent. -/
theorem author_fallback :
    ∀ (author_id : Option String) (directory : String),
      (∀ a ∈ blogConfigAuthors, some a.id ≠ author_id) →
      resolveAuthor author_id directory = { id := author_id } := by
  intro author_id directory h
  rw [resolveAuthor]
  have hfind : (blogConfigAuthors.find? fun a => some a.id == author_id) = none := by
    rw [List.find?_eq_none]
    intro a ha
    simpa using h a ha
  rw [hfind]

theorem author_fallback_witness :
    resolveAuthor (some "nobody") "vi" = { id := some "nobody" } :=
  author_fallback (some "nobody") "vi" (by decide)

/-! ## The assembled blog record (end-to-end example) -/

/-- The inputs of `blogs.transform` that feed the derived fields. -/
structure BlogDoc where
  path : List Char
  directory : String
  content : List Char
  author_id : Option String

structure BlogRecord where
  slug : List Char
  slugAsParams : List Char
  readTimeInMinutes : Nat
  author : ResolvedAuthor

/-- The derived fields of the record returned by `blogs.transform`
(lines 243-276 of `content-collections.ts`), assembled from the pieces
defined above. -/
def blogTransform (doc : BlogDoc) : BlogRecord :=
  { slug := blogSlug doc.path
    slugAsParams := blogSlugAsParams doc.path
    readTimeInMinutes := BlogSpec.readTimeInMinutes doc.content
    author := resolveAuthor doc.author_id doc.directory }

/-- The claim's document: `content/blog/vi/my-post.mdx`, so `_meta.path` is
`vi/my-post` and `_meta.directory` is `vi` (both relative to the collection
directory `../content/blog`), with a 400-word body and
`author_id: huynhsang`. -/
def myPostDoc : BlogDoc :=
  { path := str "vi/my-post"
    directory := "vi"
    content := joinWords (List.replicate 400 (str "word"))
    author_id := some "huynhsang" }

/-- C1 counterexample: the compiled slug of `content/blog/vi/my-post.mdx` is
`/vi/my-post` (a `/` plus the path relative to the collection directory),
not `/blog/vi/my-post` as the claim states. -/
theorem blog_e2e_counterexample :
    (blogTransform myPostDoc).slug ≠ str "/blog/vi/my-post"
    ∧ (blogTransform myPostDoc).slug = str "/vi/my-post" := by
  constructor
  · decide
  · decide

set_option maxRecDepth 8192 in
/-- C1 amended: the compiled record of the claim's document has slug
`/vi/my-post`, `readTimeInMinutes` 2 (400 words at 200 words/minute, rounded
up), and author name `Huỳnh Sang`. -/
theorem blog_e2e_amended :
    (blogTransform myPostDoc).slug = str "/vi/my-post"
    ∧ (blogTransform myPostDoc).readTimeInMinutes = 2
    ∧ (blogTransform myPostDoc).author.name = some "Huỳnh Sang" := by
  refine ⟨by decide, ?_, ?_⟩
  · show BlogSpec.readTimeInMinutes (joinWords (List.replicate 400 (str "word"))) = 2
    rw [readTime_joinWords]
    · simp
    · intro w hw
      rw [List.mem_replicate] at hw
      rw [hw.2]
      exact ⟨by decide, by decide⟩
  · show (resolveAuthor (some "huynhsang") "vi").name = some "Huỳnh Sang"
    rw [resolveAuthor_huynhsang]

/-! ## Package-manager command variants

`src/lib/core/utils/rehype-npm-command.ts` (bundled next to the mdx
components): for every `pre` element, three sequential (not mutually
exclusive) checks on `node.properties.__rawString__`:

```js
if (raw?.startsWith("npm i")) {
  node.properties.__npmCommand__ = raw;
  node.properties.__yarnCommand__ = raw.replace("npm i", "yarn add");
  node.properties.__pnpmCommand__ = raw.replace("npm i", "pnpm add");
  node.properties.__bunCommand__ = raw.replace("npm i", "bun add");
}
if (raw?.startsWith("npx create-")) {
  ... raw.replace("npx create-", "yarn create ") / ("npx create-", "pnpm create ")
  ... __bunCommand__ = raw.replace("npx", "bunx --bun");
}
if (raw?.startsWith("npx") && !raw?.startsWith("npx create-")) {
  ... yarn unchanged, raw.replace("npx", "pnpm dlx"), raw.replace("npx", "bunx --bun")
}
```
-/

/-- JS `s.replace(pat, rep)` with a string pattern: rewrite the first
occurrence of `pat` only (an empty pattern matches at the start, as in JS). -/
def replaceFirst (pat rep : List Char) : List Char → List Char
  | [] => if pat.isEmpty then rep else []
  | c :: rest =>
    if pat.isPrefixOf (c :: rest) then rep ++ (c :: rest).drop pat.length
    else c :: replaceFirst pat rep rest

example : replaceFirst (str "npm i") (str "yarn add") (str "npm i react")
    = str "yarn add react" := by decide
example : replaceFirst (str "npm i") (str "yarn add") (str "npm install pkg")
    = str "yarn addnstall pkg" := by decide

/-- The four command properties the pass can attach to a `pre` element;
all absent before the pass. -/
structure PreProps where
  npmCommand : Option (List Char) := none
  yarnCommand : Option (List Char) := none
  pnpmCommand : Option (List Char) := none
  bunCommand : Option (List Char) := none
deriving DecidableEq

/-- The visitor of `rehypeNpmCommand` on one `pre` node, given the raw
command string captured in `__rawString__` (absent when the capture pass
stored nothing) and the node's current command properties. -/
def rehypeNpmCommand : Option (List Char) → PreProps → PreProps
  | none, props => props
  | some s, props =>
    let props1 :=
      if (str "npm i").isPrefixOf s then
        { props with
          npmCommand := some s
          yarnCommand := some (replaceFirst (str "npm i") (str "yarn add") s)
          pnpmCommand := some (replaceFirst (str "npm i") (str "pnpm add") s)
          bunCommand := some (replaceFirst (str "npm i") (str "bun add") s) }
      else props
    let props2 :=
      if (str "npx create-").isPrefixOf s then
        { props1 with
          npmCommand := some s
          yarnCommand := some (replaceFirst (str "npx create-") (str "yarn create ") s)
          pnpmCommand := some (replaceFirst (str "npx create-") (str "pnpm create ") s)
          bunCommand := some (replaceFirst (str "npx") (str "bunx --bun") s) }
      else props1
    if (str "npx").isPrefixOf s && !(str "npx create-").isPrefixOf s then
      { props2 with
        npmCommand := some s
        yarnCommand := some s
        pnpmCommand := some (replaceFirst (str "npx") (str "pnpm dlx") s)
        bunCommand := some (replaceFirst (str "npx") (str "bunx --bun") s) }
    else props2

theorem not_npx_of_npm_i {s : List Char}
    (h : (str "npm i").isPrefixOf s = true) :
    (str "npx").isPrefixOf s = false := by
  rw [show str "npm i" = 'n':: 'p':: 'm':: ' ':: 'i'::[] from rfl] at h
  rw [show str "npx" = 'n':: 'p':: 'x'::[] from rfl]
  simp at h
  obtain ⟨t, rfl⟩ := h
  simp [List.cons_append, List.isPrefixOf_cons₂]

theorem not_npm_i_of_npx {s : List Char}
    (h : (str "npx").isPrefixOf s = true) :
    (str "npm i").isPrefixOf s = false := by
  rw [show str "npx" = 'n':: 'p':: 'x'::[] from rfl] at h
  rw [show str "npm i" = 'n':: 'p':: 'm':: ' ':: 'i'::[] from rfl]
  simp at h
  obtain ⟨t, rfl⟩ := h
  simp [List.cons_append, List.isPrefixOf_cons₂]

theorem npx_of_create {s : List Char}
    (h : (str "npx create-").isPrefixOf s = true) :
    (str "npx").isPrefixOf s = true := by
  simp at h ⊢
  exact List.IsPrefix.trans ⟨str " create-", by decide⟩ h

theorem npm_i_of_install {s : List Char}
    (h : (str "npm install").isPrefixOf s = true) :
    (str "npm i").isPrefixOf s = true := by
  simp at h ⊢
  exact List.IsPrefix.trans ⟨str "nstall", by decide⟩ h

theorem rehypeNpm_case_npm_i {s : List Char}
    (h : (str "npm i").isPrefixOf s = true) :
    rehypeNpmCommand (some s) {} =
      { npmCommand := some s,
        yarnCommand := some (replaceFirst (str "npm i") (str "yarn add") s),
        pnpmCommand := some (replaceFirst (str "npm i") (str "pnpm add") s),
        bunCommand := some (replaceFirst (str "npm i") (str "bun add") s) } := by
  have hx : (str "npx").isPrefixOf s = false := not_npx_of_npm_i h
  have hc : (str "npx create-").isPrefixOf s = false := by
    by_cases hcc : (str "npx create-").isPrefixOf s = true
    · rw [npx_of_create hcc] at hx
      exact absurd hx (by simp)
    · exact Bool.eq_false_iff.mpr hcc
  rw [rehypeNpmCommand]
  simp only [h, hc, hx, if_true, Bool.false_eq_true, if_false, Bool.false_and]

theorem rehypeNpm_case_create {s : List Char}
    (h : (str "npx create-").isPrefixOf s = true) :
    rehypeNpmCommand (some s) {} =
      { npmCommand := some s,
        yarnCommand := some (replaceFirst (str "npx create-") (str "yarn create ") s),
        pnpmCommand := some (replaceFirst (str "npx create-") (str "pnpm create ") s),
        bunCommand := some (replaceFirst (str "npx") (str "bunx --bun") s) } := by
  have hx : (str "npx").isPrefixOf s = true := npx_of_create h
  have hm : (str "npm i").isPrefixOf s = false := not_npm_i_of_npx hx
  rw [rehypeNpmCommand]
  simp only [h, hx, hm, if_true, Bool.false_eq_true, if_false, Bool.not_true,
    Bool.and_false]

theorem rehypeNpm_case_npx {s : List Char}
    (hx : (str "npx").isPrefixOf s = true)
    (hc : (str "npx create-").isPrefixOf s = false) :
    rehypeNpmCommand (some s) {} =
      { npmCommand := some s,
        yarnCommand := some s,
        pnpmCommand := some (replaceFirst (str "npx") (str "pnpm dlx") s),
        bunCommand := some (replaceFirst (str "npx") (str "bunx --bun") s) } := by
  have hm : (str "npm i").isPrefixOf s = false := not_npm_i_of_npx hx
  rw [rehypeNpmCommand]
  simp only [hx, hc, hm, if_true, Bool.false_eq_true, if_false, Bool.not_false,
    Bool.and_true]

theorem rehypeNpm_case_none {s : List Char}
    (hm : (str "npm i").isPrefixOf s = false)
    (hx : (str "npx").isPrefixOf s = false) :
    rehypeNpmCommand (some s) {} = {} := by
  have hc : (str "npx create-").isPrefixOf s = false := by
    by_cases hcc : (str "npx create-").isPrefixOf s = true
    · rw [npx_of_create hcc] at hx
      exact absurd hx (by simp)
    · exact Bool.eq_false_iff.mpr hcc
  rw [rehypeNpmCommand]
  simp only [hm, hc, hx, Bool.false_eq_true, if_false, Bool.false_and]

/-- C5 counterexample: for the raw command `npx create-next-app` the code
computes the bun variant by substituting the prefix `npx` (giving
`bunx --bun create-next-app`), not by substituting the matched prefix
`npx create-` with `bunx --bun` as the claim's mapping prescribes (which
would give `bunx --bunnext-app`). -/
theorem npm_variant_counterexample :
    (rehypeNpmCommand (some (str "npx create-next-app")) {}).bunCommand
      = some (str "bunx --bun create-next-app")
    ∧ some (str "bunx --bun create-next-app")
      ≠ some (replaceFirst (str "npx create-") (str "bunx --bun")
          (str "npx create-next-app")) := by
  constructor
  · decide
  · decide

/-- C5 amended: the three installer patterns attach all four command
properties by first-occurrence textual substitution — `npm i` ↦
`yarn add` / `pnpm add` / `bun add`; `npx create-` ↦ `yarn create ` /
`pnpm create `, with the bun variant substituting the prefix `npx` by
`bunx --bun`; other `npx` ↦ unchanged yarn / `pnpm dlx` / `bunx --bun` —
and a raw string matching no pattern receives no properties. -/
theorem npm_variant_generation :
    ∀ s : List Char,
      ((str "npm i").isPrefixOf s = true →
        rehypeNpmCommand (some s) {} =
          { npmCommand := some s,
            yarnCommand := some (replaceFirst (str "npm i") (str "yarn add") s),
            pnpmCommand := some (replaceFirst (str "npm i") (str "pnpm add") s),
            bunCommand := some (replaceFirst (str "npm i") (str "bun add") s) })
      ∧ ((str "npx create-").isPrefixOf s = true →
        rehypeNpmCommand (some s) {} =
          { npmCommand := some s,
            yarnCommand := some (replaceFirst (str "npx create-") (str "yarn create ") s),
            pnpmCommand := some (replaceFirst (str "npx create-") (str "pnpm create ") s),
            bunCommand := some (replaceFirst (str "npx") (str "bunx --bun") s) })
      ∧ ((str "npx").isPrefixOf s = true → (str "npx create-").isPrefixOf s = false →
        rehypeNpmCommand (some s) {} =
          { npmCommand := some s,
            yarnCommand := some s,
            pnpmCommand := some (replaceFirst (str "npx") (str "pnpm dlx") s),
            bunCommand := some (replaceFirst (str "npx") (str "bunx --bun") s) })
      ∧ ((str "npm i").isPrefixOf s = false → (str "npx").isPrefixOf s = false →
        rehypeNpmCommand (some s) {} = {})
      ∧ rehypeNpmCommand none {} = {} :=
  fun s =>
    ⟨rehypeNpm_case_npm_i, rehypeNpm_case_create, rehypeNpm_case_npx,
      rehypeNpm_case_none, rfl⟩

theorem npm_variant_generation_witness :
    rehypeNpmCommand (some (str "npm i react")) {} =
      { npmCommand := some (str "npm i react"),
        yarnCommand := some (replaceFirst (str "npm i") (str "yarn add") (str "npm i react")),
        pnpmCommand := some (replaceFirst (str "npm i") (str "pnpm add") (str "npm i react")),
        bunCommand := some (replaceFirst (str "npm i") (str "bun add") (str "npm i react")) } :=
  (npm_variant_generation (str "npm i react")).1 (by decide)

/-- C10: a raw string beginning with `npm install` also begins with `npm i`,
so the first pattern fires and the yarn/pnpm/bun variants replace only the
first occurrence of the literal `npm i`; concretely `npm install pkg` yields
the yarn command `yarn addnstall pkg`. -/
theorem npm_install_first_occurrence :
    (∀ s : List Char, (str "npm install").isPrefixOf s = true →
        (rehypeNpmCommand (some s) {}).yarnCommand
          = some (replaceFirst (str "npm i") (str "yarn add") s)
        ∧ (rehypeNpmCommand (some s) {}).pnpmCommand
          = some (replaceFirst (str "npm i") (str "pnpm add") s)
        ∧ (rehypeNpmCommand (some s) {}).bunCommand
          = some (replaceFirst (str "npm i") (str "bun add") s))
    ∧ (rehypeNpmCommand (some (str "npm install pkg")) {}).yarnCommand
        = some (str "yarn addnstall pkg") := by
  constructor
  · intro s hs
    rw [rehypeNpm_case_npm_i (npm_i_of_install hs)]
    exact ⟨rfl, rfl, rfl⟩
  · decide

theorem npm_install_first_occurrence_witness :
    (rehypeNpmCommand (some (str "npm install pkg")) {}).yarnCommand
      = some (replaceFirst (str "npm i") (str "yarn add") (str "npm install pkg"))
    ∧ (rehypeNpmCommand (some (str "npm install pkg")) {}).pnpmCommand
      = some (replaceFirst (str "npm i") (str "pnpm add") (str "npm install pkg"))
    ∧ (rehypeNpmCommand (some (str "npm install pkg")) {}).bunCommand
      = some (replaceFirst (str "npm i") (str "bun add") (str "npm install pkg")) :=
  npm_install_first_occurrence.1 (str "npm install pkg") (by decide)


/-! ## Raw-source capture and metadata hoist across highlighting

`content-collections.ts`: the raw-capture rehype pass (lines 42-55):

```js
visit(tree, (node) => {
  if (node?.type === "element" && node?.tagName === "pre") {
    const [codeEl] = node.children;
    if (codeEl.tagName !== "code") { return; }
    node.__rawString__ = codeEl.children?.[0]?.value;
    node.__src__ = node.properties?.__src__;
    node.__style__ = node.properties?.__style__;
  }
});
```

and the metadata-hoist pass (lines 77-100), which runs after
`rehype-pretty-code` has rebuilt the `pre` node into a wrapper element whose
last child is a new `pre`:

```js
visit(tree, (node) => {
  if (node?.type === "element" && !!node?.tagName) {
    const preElement = node?.children?.at(-1);
    if (preElement?.tagName !== "pre") { return; }
    preElement.properties["__withMeta__"] = node?.children?.at(0)?.tagName === "div";
    preElement.properties["__rawString__"] = node?.__rawString__;
    if (node?.__src__) { preElement.properties["__src__"] = node.__src__; }
    if (node?.__style__) { preElement.properties["__style__"] = node.__style__; }
  }
});
```

HAST nodes are modeled with named element properties (the four `__*__`
entries the passes read or write) plus the ad-hoc fields the capture pass
stores directly on the node object (`node.__rawString__` etc.), which
survive on the same object when the highlighter rewrites it in place into
the wrapper. `visit` is preorder: the visitor runs on a node before its
(possibly rewritten) children are traversed. A `pre` with no child at all
would make the capture pass throw in JS (`codeEl.tagName` on `undefined`);
that branch is modeled as the identity since no claim exercises it.
-/

structure ElemProps where
  rawString : Option (List Char) := none
  withMeta : Option Bool := none
  src : Option (List Char) := none
  style : Option (List Char) := none
deriving DecidableEq

structure NodeExtra where
  rawString : Option (List Char) := none
  src : Option (List Char) := none
  style : Option (List Char) := none
deriving DecidableEq

inductive HNode where
  | element (tagName : String) (properties : ElemProps) (extra : NodeExtra)
      (children : List HNode)
  | text (value : List Char)

mutual
def nodeWeight : HNode → Nat
  | .text _ => 1
  | .element _ _ _ ch => listWeight ch + 1
def listWeight : List HNode → Nat
  | [] => 0
  | c :: cs => nodeWeight c + listWeight cs
end

def captureVisit : HNode → HNode
  | .element tag props extra children =>
    if tag = "pre" then
      match children.head? with
      | some (.element ctag _ _ codeChildren) =>
        if ctag = "code" then
          .element tag props
            { rawString :=
                match codeChildren.head? with
                | some (.text v) => some v
                | _ => none
              src := props.src
              style := props.style } children
        else .element tag props extra children
      | _ => .element tag props extra children
    else .element tag props extra children
  | .text v => .text v

def isDivHead : List HNode → Bool
  | .element tag _ _ _ :: _ => tag == "div"
  | _ => false

def hoistProps (pprops : ElemProps) (extra : NodeExtra) (flag : Bool) : ElemProps :=
  { pprops with
    withMeta := some flag
    rawString := extra.rawString
    src :=
      match extra.src with
      | some v => if v = [] then pprops.src else some v
      | none => pprops.src
    style :=
      match extra.style with
      | some v => if v = [] then pprops.style else some v
      | none => pprops.style }

def hoistVisit : HNode → HNode
  | .element tag props extra children =>
    if tag = "" then .element tag props extra children
    else
      match children.getLast? with
      | some (.element ptag pprops pextra pchildren) =>
        if ptag = "pre" then
          .element tag props extra
            (children.dropLast ++
              [.element ptag (hoistProps pprops extra (isDivHead children))
                pextra pchildren])
        else .element tag props extra children
      | _ => .element tag props extra children
  | .text v => .text v

theorem nodeWeight_captureVisit (n : HNode) : nodeWeight (captureVisit n) = nodeWeight n := by
  cases n with
  | text v => rfl
  | element tag props extra children =>
    rw [captureVisit]
    split
    · split
      · split
        · rfl
        · rfl
      · rfl
    · rfl

theorem listWeight_append (l1 l2 : List HNode) :
    listWeight (l1 ++ l2) = listWeight l1 + listWeight l2 := by
  induction l1 with
  | nil => simp [listWeight]
  | cons c cs ih => simp [listWeight, ih]; omega

theorem nodeWeight_hoistVisit (n : HNode) : nodeWeight (hoistVisit n) = nodeWeight n := by
  cases n with
  | text v => rfl
  | element tag props extra children =>
    rw [hoistVisit]
    split
    · rfl
    · split
      · next ptag pprops pextra pchildren heq =>
        split
        · rw [nodeWeight, nodeWeight]
          congr 1
          have hne : children ≠ [] := by
            intro hnil
            rw [hnil] at heq
            simp at heq
          have hlast : children.getLast hne = .element ptag pprops pextra pchildren := by
            have := List.getLast?_eq_getLast children hne
            rw [heq] at this
            exact (Option.some_injective _ this).symm
          conv_rhs => rw [← List.dropLast_append_getLast hne, hlast]
          rw [listWeight_append, listWeight_append]
          simp [listWeight, nodeWeight]
        · rfl
      · rfl

theorem nodeWeight_le_of_mem {x : HNode} {l : List HNode} (h : x ∈ l) :
    nodeWeight x ≤ listWeight l := by
  induction l with
  | nil => cases h
  | cons c cs ih =>
    rcases List.mem_cons.mp h with rfl | h2
    · rw [listWeight]
      omega
    · have := ih h2
      rw [listWeight]
      omega

def hoistPass (n : HNode) : HNode :=
  match h : hoistVisit n with
  | .text v => .text v
  | .element t p e ch => .element t p e (ch.attach.map fun c => hoistPass c.1)
termination_by nodeWeight n
decreasing_by
  have h1 : nodeWeight (hoistVisit n) = nodeWeight n := nodeWeight_hoistVisit n
  rw [h] at h1
  rw [nodeWeight] at h1
  have h2 : nodeWeight c.1 ≤ listWeight ch := nodeWeight_le_of_mem c.2
  omega

def capturePass (n : HNode) : HNode :=
  match h : captureVisit n with
  | .text v => .text v
  | .element t p e ch => .element t p e (ch.attach.map fun c => capturePass c.1)
termination_by nodeWeight n
decreasing_by
  have h1 : nodeWeight (captureVisit n) = nodeWeight n := nodeWeight_captureVisit n
  rw [h] at h1
  rw [nodeWeight] at h1
  have h2 : nodeWeight c.1 ≤ listWeight ch := nodeWeight_le_of_mem c.2
  omega


theorem hoistVisit_shape (t : String) (p : ElemProps) (e : NodeExtra)
    (ch : List HNode) :
    ∃ X, hoistVisit (.element t p e ch) = .element t p e X := by
  rw [hoistVisit]
  split
  · exact ⟨ch, rfl⟩
  · split
    · split
      · exact ⟨_, rfl⟩
      · exact ⟨ch, rfl⟩
    · exact ⟨ch, rfl⟩

theorem hoistPass_eq_of_visit {n : HNode} {t : String} {p : ElemProps}
    {e : NodeExtra} {X : List HNode} (h : hoistVisit n = .element t p e X) :
    hoistPass n = .element t p e (X.map hoistPass) := by
  rw [hoistPass]
  split
  · next v heq =>
    rw [h] at heq
    exact HNode.noConfusion heq
  · next t2 p2 e2 ch2 heq =>
    rw [h] at heq
    injection heq with h1 h2 h3 h4
    subst h1
    subst h2
    subst h3
    subst h4
    rw [List.attach_map_val]

theorem hoistVisit_wrapper {t : String} {p : ElemProps} {e : NodeExtra}
    {ch : List HNode} {pp : ElemProps} {pe : NodeExtra} {pch : List HNode}
    (htag : t ≠ "")
    (hlast : ch.getLast? = some (.element "pre" pp pe pch)) :
    hoistVisit (.element t p e ch) = .element t p e
      (ch.dropLast ++
        [.element "pre" (hoistProps pp e (isDivHead ch)) pe pch]) := by
  rw [hoistVisit]
  rw [if_neg htag, hlast]
  rfl


def extraOf : HNode → NodeExtra
  | .element _ _ e _ => e
  | .text _ => {}

def lastPreProps : HNode → Option ElemProps
  | .element _ _ _ ch =>
    match ch.getLast? with
    | some (.element ptag pp _ _) => if ptag = "pre" then some pp else none
    | _ => none
  | .text _ => none

def lastPreRawString (n : HNode) : Option (List Char) :=
  match lastPreProps n with
  | some pp => pp.rawString
  | none => none

def lastPreWithMeta (n : HNode) : Option Bool :=
  match lastPreProps n with
  | some pp => pp.withMeta
  | none => none

theorem capturePass_pre_extra (p0 cp : ElemProps) (e0 ce : NodeExtra)
    (r : List Char) (codeRest preRest : List HNode) :
    extraOf (capturePass (.element "pre" p0 e0
      (.element "code" cp ce (.text r :: codeRest) :: preRest)))
      = { rawString := some r, src := p0.src, style := p0.style } := by
  have hv : captureVisit (.element "pre" p0 e0
      (.element "code" cp ce (.text r :: codeRest) :: preRest))
      = .element "pre" p0
          { rawString := some r, src := p0.src, style := p0.style }
          (.element "code" cp ce (.text r :: codeRest) :: preRest) := by
    rw [captureVisit]
    rfl
  rw [capturePass]
  split
  · next v heq =>
    rw [hv] at heq
    exact HNode.noConfusion heq
  · next t2 p2 e2 ch2 heq =>
    rw [hv] at heq
    injection heq with h1 h2 h3 h4
    subst h3
    rfl

theorem hoistPass_element_shape (t : String) (p : ElemProps) (e : NodeExtra)
    (ch : List HNode) :
    ∃ Y, hoistPass (.element t p e ch) = .element t p e Y := by
  obtain ⟨X, hX⟩ := hoistVisit_shape t p e ch
  exact ⟨X.map hoistPass, hoistPass_eq_of_visit hX⟩

theorem isDivHead_iff (ch : List HNode) :
    isDivHead ch = true ↔
      ∃ dp de dch, ch.head? = some (.element "div" dp de dch) := by
  cases ch with
  | nil => simp [isDivHead]
  | cons c rest =>
    cases c with
    | text v => simp [isDivHead]
    | element tag cp ce cch =>
      show (tag == "div") = true ↔ _
      simp only [beq_iff_eq, List.head?_cons, Option.some_inj]
      constructor
      · intro h
        subst h
        exact ⟨cp, ce, cch, rfl⟩
      · rintro ⟨dp, de, dch, h⟩
        cases h
        rfl

/-- C6: raw-source survival across highlighting. The capture pass stores the
fence's literal code text (the first text child of `pre > code`) on the node;
for any wrapper the highlighter produces from that node — any element with a
truthy tag carrying the captured annotations whose last child is a `pre` —
the hoist pass copies the captured text byte-identically onto that final
`pre`'s `__rawString__` property, and sets `__withMeta__` true exactly when
the wrapper's first child is a `div` element. -/
theorem raw_source_survival :
    ∀ (r : List Char) (p0 cp : ElemProps) (e0 ce : NodeExtra)
      (codeRest preRest : List HNode) (t : String) (p : ElemProps)
      (ch : List HNode) (pp : ElemProps) (pe : NodeExtra) (pch : List HNode),
      t ≠ "" →
      ch.getLast? = some (.element "pre" pp pe pch) →
      (extraOf (capturePass (.element "pre" p0 e0
          (.element "code" cp ce (.text r :: codeRest) :: preRest)))).rawString
        = some r
      ∧ lastPreRawString (hoistPass (.element t p
          (extraOf (capturePass (.element "pre" p0 e0
            (.element "code" cp ce (.text r :: codeRest) :: preRest)))) ch))
        = some r
      ∧ lastPreWithMeta (hoistPass (.element t p
          (extraOf (capturePass (.element "pre" p0 e0
            (.element "code" cp ce (.text r :: codeRest) :: preRest)))) ch))
        = some (isDivHead ch)
      ∧ (isDivHead ch = true ↔
          ∃ dp de dch, ch.head? = some (.element "div" dp de dch)) := by
  intro r p0 cp e0 ce codeRest preRest t p ch pp pe pch htag hlast
  rw [capturePass_pre_extra]
  have hv := hoistVisit_wrapper htag hlast
    (p := p) (e := { rawString := some r, src := p0.src, style := p0.style })
  have hp := hoistPass_eq_of_visit hv
  rw [hp]
  obtain ⟨Y, hY⟩ := hoistPass_element_shape "pre"
    (hoistProps pp { rawString := some r, src := p0.src, style := p0.style }
      (isDivHead ch)) pe pch
  rw [List.map_append]
  have hlast2 : ((ch.dropLast.map hoistPass)
      ++ List.map hoistPass [HNode.element "pre"
        (hoistProps pp { rawString := some r, src := p0.src, style := p0.style }
          (isDivHead ch)) pe pch]).getLast?
      = some (.element "pre"
          (hoistProps pp { rawString := some r, src := p0.src, style := p0.style }
            (isDivHead ch)) pe Y) := by
    rw [List.map_cons, List.map_nil, List.getLast?_concat, hY]
  refine ⟨rfl, ?_, ?_, isDivHead_iff ch⟩
  · rw [lastPreRawString, lastPreProps]
    rw [hlast2]
    rfl
  · rw [lastPreWithMeta, lastPreProps]
    rw [hlast2]
    rfl

theorem raw_source_survival_witness :
    (extraOf (capturePass (.element "pre" {} {}
        (.element "code" {} {} (.text ('a':: 'b'::[]) :: []) :: []))) ).rawString
      = some ('a':: 'b'::[])
    ∧ lastPreRawString (hoistPass (.element "figure" {}
        (extraOf (capturePass (.element "pre" {} {}
          (.element "code" {} {} (.text ('a':: 'b'::[]) :: []) :: []))))
        [HNode.element "div" {} {} [], HNode.element "pre" {} {} []]))
      = some ('a':: 'b'::[])
    ∧ lastPreWithMeta (hoistPass (.element "figure" {}
        (extraOf (capturePass (.element "pre" {} {}
          (.element "code" {} {} (.text ('a':: 'b'::[]) :: []) :: []))))
        [HNode.element "div" {} {} [], HNode.element "pre" {} {} []]))
      = some (isDivHead [HNode.element "div" {} {} [], HNode.element "pre" {} {} []])
    ∧ (isDivHead [HNode.element "div" {} {} [], HNode.element "pre" {} {} []] = true ↔
        ∃ dp de dch, ([HNode.element "div" {} {} [], HNode.element "pre" {} {} []].head?
          = some (.element "div" dp de dch))) :=
  raw_source_survival ('a':: 'b'::[]) {} {} {} {} [] [] "figure" {}
    [HNode.element "div" {} {} [], HNode.element "pre" {} {} []] {} {} []
    (by decide) rfl


end BlogSpec
